import Mathlib

/-!
Verification of the text-normalization pipeline of `scripts/train.py`
(repository `kemingy/tocken`).

The script's one piece of original logic is the function `stemming`,
which tokenizes a document with the compiled pattern `\b\w\w+\b`,
optionally lowercases the tokens, stems them in one batch call, drops
stems that are stopwords, and joins the survivors with single spaces.
The stemmer (`Stemmer("english")`) and the stopword set
(`set(stopwords.words("english"))`) come from external libraries and are
modelled as explicit parameters, as the design notes of the spec suggest.
`batch_iterator` groups the dataset's text column into fixed-size batches
and maps `stemming` over every document of a batch.
-/

namespace Tocken

/-- Word-character test of the compiled pattern `re.compile(r"(?u)\b\w\w+\b")`:
a word character is a letter, a digit, or the underscore (the decidable
character-class core of `\w`). -/
def isWordChar (c : Char) : Bool :=
  c.isAlpha || c.isDigit || c == '_'

/-- Maximal runs of characters satisfying `w`, in order of appearance.
Characters failing `w` separate runs and never appear in any run. -/
def runs (w : Char → Bool) : List Char → List (List Char)
  | [] => []
  | [c] => if w c then [[c]] else []
  | c :: d :: cs =>
    let rest := runs w (d :: cs)
    if w c then
      if w d then
        match rest with
        | r :: rs => (c :: r) :: rs
        | [] => [[c]]
      else [c] :: rest
    else rest

/-- The value of `REGEX.findall(text)` for `REGEX = re.compile(r"(?u)\b\w\w+\b")`:
the maximal word-character runs of length at least two, left to right.  The
word boundaries `\b` together with `\w\w+` select exactly the maximal runs,
and the minimum length two drops single-character runs. -/
def findall (text : String) : List String :=
  ((runs isWordChar text.data).filter fun r => 2 ≤ r.length).map fun r => ⟨r⟩

/-- Python `str.lower`, character by character. -/
def lower (s : String) : String :=
  ⟨s.data.map Char.toLower⟩

/-- The batched stemmer call `stemmer.stemWords(words)`: the stemming function
applied to each word of the batch, preserving order and length. -/
def stemWords (stemmer : String → String) (words : List String) : List String :=
  words.map stemmer

/-- Python `" ".join(words)`: the words joined with single ASCII spaces. -/
def spaceJoin : List String → String
  | [] => ""
  | [w] => w
  | w :: x :: ws => w ++ " " ++ spaceJoin (x :: ws)

/-- The ordered list of stems surviving inside `stemming`: extract the tokens,
lowercase each one when `lowercase` is set, stem the whole batch, and drop any
stem that is a member of the stopword set. -/
def stemmedTokens (stemmer : String → String) (stops : String → Bool)
    (text : String) (lowercase : Bool) : List String :=
  (stemWords stemmer
      ((findall text).map fun word => if lowercase then lower word else word)).filter
    fun word => !stops word

/-- The function `stemming(text, lowercase=True)` of `scripts/train.py`, with
the process-wide stemmer and stopword set passed as explicit parameters. -/
def stemming (stemmer : String → String) (stops : String → Bool)
    (text : String) (lowercase : Bool) : String :=
  spaceJoin (stemmedTokens stemmer stops text lowercase)

/-- The grouping performed by `dataset.iter(batch_size)`: consecutive groups of
`n` documents, in order, the last group possibly shorter. -/
def chunks {α : Type _} (n : Nat) : List α → List (List α)
  | [] => []
  | c :: cs => (c :: cs.take (n - 1)) :: chunks n (cs.drop (n - 1))
termination_by l => l.length
decreasing_by
  simp [List.length_drop]
  omega

/-- The generator `batch_iterator(batch_size)` of `scripts/train.py`: the
dataset's text column in groups of `batch_size`, each document of a group
normalized by `stemming` with the default `lowercase=True`. -/
def batch_iterator (stemmer : String → String) (stops : String → Bool)
    (docs : List String) (batch_size : Nat) : List (List String) :=
  (chunks batch_size docs).map fun batch =>
    batch.map fun text => stemming stemmer stops text true

/-- Whether two consecutive spaces occur somewhere in the character list. -/
def hasDoubleSpace : List Char → Bool
  | c :: d :: cs => (c == ' ' && d == ' ') || hasDoubleSpace (d :: cs)
  | _ => false

/-- Specification of a maximal run, following the spec's wording: `r` occurs
contiguously in `l`, is nonempty, consists of word characters only, and is
flanked on both sides by a non-word character or by an edge of `l`. -/
def IsMaximalRun (w : Char → Bool) (l r : List Char) : Prop :=
  r ≠ [] ∧ (∀ c ∈ r, w c = true) ∧
    ∃ pre post, l = pre ++ r ++ post ∧
      (∀ c, pre.getLast? = some c → w c = false) ∧
      (∀ c, post.head? = some c → w c = false)

/-- Unfolding lemma for `runs` in the usual span form. -/
theorem runs_cons (w : Char → Bool) (c : Char) (cs : List Char) :
    runs w (c :: cs) =
      if w c then (c :: cs.takeWhile w) :: runs w (cs.dropWhile w)
      else runs w cs := by
  induction cs generalizing c with
  | nil => simp [runs]
  | cons d cs ih =>
    by_cases hc : w c <;> by_cases hd : w d <;>
      simp [runs, hc, hd, List.takeWhile_cons, List.dropWhile_cons, ih d]

/-- A list without word characters has no runs. -/
theorem runs_eq_nil (w : Char → Bool) (l : List Char)
    (h : ∀ c ∈ l, w c = false) : runs w l = [] := by
  induction l with
  | nil => rfl
  | cons c cs ih =>
    rw [runs_cons]
    have hc : w c = false := h c (List.mem_cons_self c cs)
    simp only [hc, Bool.false_eq_true, if_false]
    exact ih fun d hd => h d (List.mem_cons_of_mem c hd)

/-- C3: text consisting solely of non-word characters (punctuation and
whitespace), and in particular the empty text, normalizes to the empty string,
for every stemmer, stopword set and lowercase flag; `stemming` is a total
function, so no error is possible. -/
theorem stemming_all_nonword_eq_empty (stemmer : String → String)
    (stops : String → Bool) (text : String) (lowercase : Bool)
    (h : ∀ c ∈ text.data, isWordChar c = false) :
    stemming stemmer stops text lowercase = "" := by
  have hr : runs isWordChar text.data = [] := runs_eq_nil _ _ h
  simp [stemming, stemmedTokens, findall, hr, stemWords, spaceJoin]

/-- Closed instance of `stemming_all_nonword_eq_empty` on a punctuation and
whitespace text. -/
theorem stemming_all_nonword_eq_empty_witness :
    (∀ c ∈ (" ,.!?)(" : String).data, isWordChar c = false) ∧
      stemming (fun s => s) (fun _ => false) " ,.!?)(" true = "" :=
  ⟨by decide, stemming_all_nonword_eq_empty _ _ _ _ (by decide)⟩

/-- C1: stopword filtering applies to the stemmed form: whenever the stem of an
extracted token (lowercased when `lowercase` is set) is a stopword, that stem
is absent from the surviving tokens of `stemming`, with no assumption on the
token's surface form. -/
theorem stem_stopword_filtered (stemmer : String → String) (stops : String → Bool)
    (text : String) (lowercase : Bool) (tok : String)
    (htok : tok ∈ findall text)
    (hstop : stops (stemmer (if lowercase then lower tok else tok)) = true) :
    stemmer (if lowercase then lower tok else tok) ∉
      stemmedTokens stemmer stops text lowercase := by
  intro hmem
  simp only [stemmedTokens, List.mem_filter] at hmem
  rw [hstop] at hmem
  simp at hmem

/-- Demonstration stemmer: maps the non-stopword surface form `"corpora"` to
the stem `"the"` and fixes everything else. -/
def demoStemmer : String → String := fun s => if s = "corpora" then "the" else s

/-- Demonstration stopword set holding the single lowercase word `"the"`. -/
def demoStops : String → Bool := fun s => s == "the"

/-- Closed instance of `stem_stopword_filtered`: the token `"corpora"` is not a
stopword, its stem `"the"` is, and the stem is filtered out. -/
theorem stem_stopword_filtered_witness :
    ("corpora" ∈ findall "A corpora!" ∧
        demoStops (demoStemmer (if true then lower "corpora" else "corpora")) = true) ∧
      demoStemmer (if true then lower "corpora" else "corpora") ∉
        stemmedTokens demoStemmer demoStops "A corpora!" true :=
  ⟨⟨by decide, by decide⟩, stem_stopword_filtered _ _ _ _ _ (by decide) (by decide)⟩

/-- C7: with `lowercase=False` the stemmer receives every token verbatim: the
pipeline performs no case folding at all, and on the input `"Running"` the
literal string `"Running"` is what gets stemmed. -/
theorem stemming_no_lowercase_preserves_case (stemmer : String → String)
    (stops : String → Bool) :
    (∀ text, stemmedTokens stemmer stops text false =
        (stemWords stemmer (findall text)).filter fun word => !stops word) ∧
      stemming stemmer stops "Running" false =
        (if stops (stemmer "Running") then "" else stemmer "Running") := by
  refine ⟨fun text => by simp [stemmedTokens, stemWords], ?_⟩
  have hf : findall "Running" = ["Running"] := by decide
  by_cases h : stops (stemmer "Running") <;>
    simp [stemming, stemmedTokens, stemWords, hf, h, spaceJoin]

/-- C8: normalization is pure: the output for a document is a function of the
document, the stemmer, the stopword set and the flag alone — normalizing a
document after an arbitrary batch of earlier documents yields exactly what
`stemming` yields on that document in isolation. -/
theorem stemming_pure (stemmer : String → String) (stops : String → Bool)
    (lowercase : Bool) (earlier : List String) (doc : String) :
    ((earlier ++ [doc]).map fun text =>
        stemming stemmer stops text lowercase).getLast?
      = some (stemming stemmer stops doc lowercase) := by
  simp

/-- C10: stopword membership is exact string comparison on the stemmed form:
with `lowercase=False`, a capitalized occurrence such as `"The"` whose stem
keeps its capital letter is not filtered when only the lowercase spelling is a
stopword, and so survives into the output. -/
theorem capitalized_stopword_not_filtered (stemmer : String → String)
    (stops : String → Bool) (hstem : stemmer "The" = "The")
    (hstops : stops "The" = false) :
    stemmedTokens stemmer stops "The" false = ["The"] ∧
      stemming stemmer stops "The" false = "The" := by
  have hf : findall "The" = ["The"] := by decide
  have h1 : stemmedTokens stemmer stops "The" false = ["The"] := by
    simp [stemmedTokens, stemWords, hf, hstem, hstops]
  exact ⟨h1, by simp [stemming, h1, spaceJoin]⟩

/-- Closed instance of `capitalized_stopword_not_filtered` with the identity
stemmer and the stopword set holding only `"the"`. -/
theorem capitalized_stopword_not_filtered_witness :
    ((fun s => s) "The" = "The" ∧ (fun s => s == "the") "The" = false) ∧
      (stemmedTokens (fun s => s) (fun s => s == "the") "The" false = ["The"] ∧
        stemming (fun s => s) (fun s => s == "the") "The" false = "The") :=
  ⟨⟨rfl, by decide⟩, capitalized_stopword_not_filtered _ _ rfl (by decide)⟩

/-- C4: surviving stems keep the source order of the tokens they come from
(they form a sublist of the batch-stemmed token list), and on the spec's
example sentence the output is exactly `"run dog quickli jump"`. -/
theorem stemming_preserves_order (stemmer : String → String) (stops : String → Bool)
    (h1 : stemmer "running" = "run") (h2 : stemmer "dogs" = "dog")
    (h3 : stemmer "quickly" = "quickli") (h4 : stemmer "jumped" = "jump")
    (s1 : stops "run" = false) (s2 : stops "dog" = false)
    (s3 : stops "quickli" = false) (s4 : stops "jump" = false) :
    (∀ text lowercase, List.Sublist (stemmedTokens stemmer stops text lowercase)
        (stemWords stemmer ((findall text).map fun word =>
          if lowercase then lower word else word))) ∧
      stemming stemmer stops "Running dogs quickly jumped" true =
        "run dog quickli jump" := by
  constructor
  · intro text lowercase
    exact List.filter_sublist _
  · have hf : findall "Running dogs quickly jumped" =
        ["Running", "dogs", "quickly", "jumped"] := by decide
    have hl1 : lower "Running" = "running" := by decide
    have hl2 : lower "dogs" = "dogs" := by decide
    have hl3 : lower "quickly" = "quickly" := by decide
    have hl4 : lower "jumped" = "jumped" := by decide
    have hsj : spaceJoin ["run", "dog", "quickli", "jump"] =
        "run dog quickli jump" := by decide
    simp [stemming, stemmedTokens, stemWords, hf, hl1, hl2, hl3, hl4,
      h1, h2, h3, h4, s1, s2, s3, s4, hsj]

/-- Demonstration stemmer realizing the mapping of the spec's order-preservation
example. -/
def demoStemmer4 : String → String := fun s =>
  if s = "running" then "run"
  else if s = "dogs" then "dog"
  else if s = "quickly" then "quickli"
  else if s = "jumped" then "jump"
  else s

/-- Closed instance of `stemming_preserves_order` on the spec's example. -/
theorem stemming_preserves_order_witness :
    (demoStemmer4 "running" = "run" ∧ demoStemmer4 "dogs" = "dog" ∧
        demoStemmer4 "quickly" = "quickli" ∧ demoStemmer4 "jumped" = "jump") ∧
      ((∀ text lowercase,
          List.Sublist (stemmedTokens demoStemmer4 (fun _ => false) text lowercase)
            (stemWords demoStemmer4 ((findall text).map fun word =>
              if lowercase then lower word else word))) ∧
        stemming demoStemmer4 (fun _ => false) "Running dogs quickly jumped" true =
          "run dog quickli jump") :=
  ⟨⟨by decide, by decide, by decide, by decide⟩,
    stemming_preserves_order _ _ (by decide) (by decide) (by decide) (by decide)
      rfl rfl rfl rfl⟩

/-- The last element of a list is a member of it. -/
theorem mem_of_getLast? {α : Type _} : ∀ {l : List α} {a : α},
    l.getLast? = some a → a ∈ l := by
  intro l
  induction l with
  | nil => intro a h; simp at h
  | cons c cs ih =>
    intro a h
    cases cs with
    | nil => simp_all
    | cons d ds =>
      rw [List.getLast?_cons_cons] at h
      exact List.mem_cons_of_mem _ (ih h)

/-- Prepending a non-space character does not create a double space. -/
theorem hasDoubleSpace_cons (c : Char) (l : List Char) (hc : c ≠ ' ') :
    hasDoubleSpace (c :: l) = hasDoubleSpace l := by
  have hcb : (c == ' ') = false := beq_eq_false_iff_ne.mpr hc
  cases l with
  | nil => rfl
  | cons d rest => simp [hasDoubleSpace, hcb]

/-- A space-free prefix does not affect the double-space test. -/
theorem hasDoubleSpace_append (a b : List Char) (ha : ∀ c ∈ a, c ≠ ' ') :
    hasDoubleSpace (a ++ b) = hasDoubleSpace b := by
  induction a with
  | nil => rfl
  | cons c a ih =>
    rw [List.cons_append, hasDoubleSpace_cons c _ (ha c (List.mem_cons_self c a))]
    exact ih fun d hd => ha d (List.mem_cons_of_mem c hd)

/-- Joining nonempty space-free words with single spaces yields no double
space, no leading space and no trailing space. -/
theorem spaceJoin_clean (L : List String)
    (h : ∀ s ∈ L, s ≠ "" ∧ ∀ c ∈ s.data, c ≠ ' ') :
    hasDoubleSpace (spaceJoin L).data = false ∧
      (spaceJoin L).data.head? ≠ some ' ' ∧
      (spaceJoin L).data.getLast? ≠ some ' ' ∧
      (L ≠ [] → (spaceJoin L).data ≠ []) := by
  induction L with
  | nil => simp [spaceJoin, hasDoubleSpace]
  | cons w ws ih =>
    obtain ⟨hw, hwc⟩ := h w (List.mem_cons_self w ws)
    have hwd : w.data ≠ [] := by
      intro hd
      exact hw (String.ext hd)
    cases ws with
    | nil =>
      simp only [spaceJoin]
      refine ⟨?_, ?_, ?_, fun _ => hwd⟩
      · have h0 := hasDoubleSpace_append w.data [] hwc
        rw [List.append_nil] at h0
        exact h0
      · intro hh
        exact hwc ' ' (List.mem_of_mem_head? (Option.mem_def.mpr hh)) rfl
      · intro hh
        exact hwc ' ' (mem_of_getLast? hh) rfl
    | cons x ws2 =>
      obtain ⟨ih1, ih2, ih3, ih4⟩ := ih fun s hs => h s (List.mem_cons_of_mem w hs)
      have hJ : (spaceJoin (x :: ws2)).data ≠ [] := ih4 (by simp)
      have hdata : (spaceJoin (w :: x :: ws2)).data
          = w.data ++ ' ' :: (spaceJoin (x :: ws2)).data := by
        show (w ++ " " ++ spaceJoin (x :: ws2)).data = _
        simp [String.data_append]
      refine ⟨?_, ?_, ?_, fun _ => ?_⟩
      · rw [hdata, hasDoubleSpace_append _ _ hwc]
        cases hJd : (spaceJoin (x :: ws2)).data with
        | nil => exact absurd hJd hJ
        | cons j J2 =>
          have hj : (j == ' ') = false := by
            refine beq_eq_false_iff_ne.mpr fun he => ih2 ?_
            rw [hJd]
            simp [he]
          have htail : hasDoubleSpace (j :: J2) = false := by
            rw [← hJd]; exact ih1
          simp [hasDoubleSpace, hj, htail]
      · rw [hdata]
        cases hwdd : w.data with
        | nil => exact absurd hwdd hwd
        | cons c rest =>
          simp only [List.cons_append, List.head?_cons]
          intro hh
          have hc : c = ' ' := by injection hh
          exact hwc c (by rw [hwdd]; exact List.mem_cons_self c rest) hc
      · rw [hdata, List.getLast?_append]
        cases hJd : (spaceJoin (x :: ws2)).data with
        | nil => exact absurd hJd hJ
        | cons j J2 =>
          rw [List.getLast?_cons_cons]
          have h3 : (j :: J2).getLast? ≠ some ' ' := by
            rw [← hJd]; exact ih3
          obtain ⟨d, hd⟩ : ∃ d, (j :: J2).getLast? = some d := by
            cases hgl : (j :: J2).getLast? with
            | none => simp at hgl
            | some d => exact ⟨d, rfl⟩
          rw [hd]
          intro he
          exact h3 (by rw [hd]; exact he)
      · rw [hdata]
        simp

/-- C2: the normalized string contains no two consecutive spaces, no leading
space and no trailing space, provided every stem the stemmer returns for an
extracted token is nonempty and whitespace-free. -/
theorem stemming_no_space_runs (stemmer : String → String) (stops : String → Bool)
    (text : String) (lowercase : Bool)
    (h : ∀ tok ∈ findall text,
      stemmer (if lowercase then lower tok else tok) ≠ "" ∧
        ∀ c ∈ (stemmer (if lowercase then lower tok else tok)).data,
          c.isWhitespace = false) :
    hasDoubleSpace (stemming stemmer stops text lowercase).data = false ∧
      (stemming stemmer stops text lowercase).data.head? ≠ some ' ' ∧
      (stemming stemmer stops text lowercase).data.getLast? ≠ some ' ' := by
  have hL : ∀ s ∈ stemmedTokens stemmer stops text lowercase,
      s ≠ "" ∧ ∀ c ∈ s.data, c ≠ ' ' := by
    intro s hs
    simp only [stemmedTokens] at hs
    obtain ⟨hs1, _⟩ := List.mem_filter.mp hs
    simp only [stemWords, List.map_map, List.mem_map, Function.comp] at hs1
    obtain ⟨tok, htok, rfl⟩ := hs1
    obtain ⟨hne, hws⟩ := h tok htok
    refine ⟨hne, fun c hc hce => ?_⟩
    subst hce
    exact absurd (hws ' ' hc) (by decide)
  obtain ⟨a, b, c, _⟩ := spaceJoin_clean _ hL
  exact ⟨a, b, c⟩

/-- Closed instance of `stemming_no_space_runs` with the identity stemmer. -/
theorem stemming_no_space_runs_witness :
    (∀ tok ∈ findall "Hello, world!",
        (fun s => s) (if true then lower tok else tok) ≠ "" ∧
          ∀ c ∈ ((fun s => s) (if true then lower tok else tok)).data,
            c.isWhitespace = false) ∧
      (hasDoubleSpace (stemming (fun s => s) (fun _ => false) "Hello, world!" true).data
          = false ∧
        (stemming (fun s => s) (fun _ => false) "Hello, world!" true).data.head?
          ≠ some ' ' ∧
        (stemming (fun s => s) (fun _ => false) "Hello, world!" true).data.getLast?
          ≠ some ' ') :=
  ⟨by decide, stemming_no_space_runs _ _ _ _ (by decide)⟩

/-- Unfolding lemma: batching an empty list. -/
theorem chunks_nil {α : Type _} (n : Nat) : chunks n ([] : List α) = [] := by
  rw [chunks]

/-- Unfolding lemma: batching a nonempty list takes the first group and
recurses on the remainder. -/
theorem chunks_cons {α : Type _} (n : Nat) (c : α) (cs : List α) :
    chunks n (c :: cs) = (c :: cs.take (n - 1)) :: chunks n (cs.drop (n - 1)) := by
  rw [chunks]

/-- Batching produces no group exactly when the input is empty. -/
theorem chunks_eq_nil_iff {α : Type _} {n : Nat} {l : List α} :
    chunks n l = [] ↔ l = [] := by
  cases l with
  | nil => simp [chunks_nil]
  | cons c cs => rw [chunks_cons]; simp

/-- Concatenating the groups restores the original list. -/
theorem chunks_flatten {α : Type _} (n : Nat) (l : List α) :
    (chunks n l).flatten = l := by
  suffices H : ∀ k (l : List α), l.length ≤ k → (chunks n l).flatten = l from
    H l.length l Nat.le.refl
  intro k
  induction k with
  | zero =>
    intro l hl
    rw [List.length_eq_zero.mp (Nat.le_zero.mp hl), chunks_nil, List.flatten_nil]
  | succ k ih =>
    intro l hl
    cases l with
    | nil => rw [chunks_nil, List.flatten_nil]
    | cons c cs =>
      rw [chunks_cons]
      have hlen : (cs.drop (n - 1)).length ≤ k := by
        rw [List.length_drop]
        simp only [List.length_cons] at hl
        omega
      rw [List.flatten_cons, ih _ hlen, List.cons_append, List.take_append_drop]

/-- Every group is nonempty and no longer than the batch size. -/
theorem chunks_length_le {α : Type _} (n : Nat) (hn : 0 < n) (l : List α) :
    ∀ g ∈ chunks n l, g.length ≤ n ∧ g ≠ [] := by
  suffices H : ∀ k (l : List α), l.length ≤ k →
      ∀ g ∈ chunks n l, g.length ≤ n ∧ g ≠ [] from H l.length l Nat.le.refl
  intro k
  induction k with
  | zero =>
    intro l hl
    rw [List.length_eq_zero.mp (Nat.le_zero.mp hl), chunks_nil]
    intro g hg
    exact absurd hg (List.not_mem_nil g)
  | succ k ih =>
    intro l hl
    cases l with
    | nil =>
      rw [chunks_nil]
      intro g hg
      exact absurd hg (List.not_mem_nil g)
    | cons c cs =>
      rw [chunks_cons]
      intro g hg
      rcases List.mem_cons.mp hg with rfl | hg2
      · refine ⟨?_, by simp⟩
        simp only [List.length_cons, List.length_take]
        omega
      · have hlen : (cs.drop (n - 1)).length ≤ k := by
          rw [List.length_drop]
          simp only [List.length_cons] at hl
          omega
        exact ih _ hlen g hg2

/-- Every group except possibly the last has exactly the batch size. -/
theorem chunks_dropLast_length {α : Type _} (n : Nat) (hn : 0 < n) (l : List α) :
    ∀ g ∈ (chunks n l).dropLast, g.length = n := by
  suffices H : ∀ k (l : List α), l.length ≤ k →
      ∀ g ∈ (chunks n l).dropLast, g.length = n from H l.length l Nat.le.refl
  intro k
  induction k with
  | zero =>
    intro l hl
    rw [List.length_eq_zero.mp (Nat.le_zero.mp hl), chunks_nil]
    intro g hg
    exact absurd hg (List.not_mem_nil g)
  | succ k ih =>
    intro l hl
    cases l with
    | nil =>
      rw [chunks_nil]
      intro g hg
      exact absurd hg (List.not_mem_nil g)
    | cons c cs =>
      rw [chunks_cons]
      cases hrest : chunks n (cs.drop (n - 1)) with
      | nil => simp
      | cons r rs =>
        have hne : cs.drop (n - 1) ≠ [] := by
          intro hnil
          rw [hnil, chunks_nil] at hrest
          exact List.noConfusion hrest
        have hlencs : n - 1 ≤ cs.length := by
          by_contra hlt
          exact hne (List.drop_eq_nil_of_le (Nat.le_of_not_le hlt))
        intro g hg
        rw [List.dropLast_cons₂] at hg
        rcases List.mem_cons.mp hg with rfl | hg2
        · simp only [List.length_cons, List.length_take]
          omega
        · have hlen : (cs.drop (n - 1)).length ≤ k := by
            rw [List.length_drop]
            simp only [List.length_cons] at hl
            omega
          have hrec := ih _ hlen
          rw [hrest] at hrec
          exact hrec g hg2

/-- Mapping under the groups commutes with flattening. -/
theorem flatten_map_map {α β : Type _} (f : α → β) (L : List (List α)) :
    (L.map fun l => l.map f).flatten = L.flatten.map f := by
  induction L with
  | nil => rfl
  | cons a L ih =>
    rw [List.map_cons, List.flatten_cons, List.flatten_cons, List.map_append, ih]

/-- C9: the batch iterator splits the documents into consecutive groups of the
configured size (the last group possibly smaller), normalizes every document
of a group independently with `stemming` (default `lowercase=True`), preserves
the order of documents inside each group and across groups, and carries no
state between groups: flattening the output groups yields exactly the
per-document normalization of the whole dataset. -/
theorem batch_iterator_spec (stemmer : String → String) (stops : String → Bool)
    (docs : List String) (batch_size : Nat) (hn : 0 < batch_size) :
    (chunks batch_size docs).flatten = docs ∧
      (∀ g ∈ (chunks batch_size docs).dropLast, g.length = batch_size) ∧
      (∀ g ∈ chunks batch_size docs, g.length ≤ batch_size ∧ g ≠ []) ∧
      batch_iterator stemmer stops docs batch_size =
        (chunks batch_size docs).map
          (fun batch => batch.map fun text => stemming stemmer stops text true) ∧
      (batch_iterator stemmer stops docs batch_size).flatten =
        docs.map fun text => stemming stemmer stops text true := by
  refine ⟨chunks_flatten _ _, chunks_dropLast_length _ hn _, chunks_length_le _ hn _,
    rfl, ?_⟩
  rw [batch_iterator, flatten_map_map, chunks_flatten]

/-- Closed instance of `batch_iterator_spec` with batch size two and three
documents. -/
theorem batch_iterator_spec_witness :
    0 < 2 ∧
      ((chunks 2 ["aa bb", "cc", "dd!"]).flatten = ["aa bb", "cc", "dd!"] ∧
        (∀ g ∈ (chunks 2 ["aa bb", "cc", "dd!"]).dropLast, g.length = 2) ∧
        (∀ g ∈ chunks 2 ["aa bb", "cc", "dd!"], g.length ≤ 2 ∧ g ≠ []) ∧
        batch_iterator (fun s => s) (fun _ => false) ["aa bb", "cc", "dd!"] 2 =
          (chunks 2 ["aa bb", "cc", "dd!"]).map
            (fun batch => batch.map fun text =>
              stemming (fun s => s) (fun _ => false) text true) ∧
        (batch_iterator (fun s => s) (fun _ => false) ["aa bb", "cc", "dd!"] 2).flatten =
          ["aa bb", "cc", "dd!"].map fun text =>
            stemming (fun s => s) (fun _ => false) text true) :=
  ⟨by decide, batch_iterator_spec _ _ _ _ (by decide)⟩

/-- The first character remaining after `dropWhile` fails the predicate. -/
theorem dropWhile_head_not (w : Char → Bool) (l : List Char) (c : Char)
    (h : (l.dropWhile w).head? = some c) : w c = false := by
  have hall := List.head?_dropWhile_not w l
  rw [h] at hall
  exact hall

/-- Lowercasing keeps the length of a string. -/
theorem lower_length (s : String) : (lower s).length = s.length :=
  List.length_map s.data Char.toLower

/-- Dropping the leading satisfying characters of a list whose last element
fails the predicate commutes with appending, and keeps that last element. -/
theorem dropWhile_with_bad_last (w : Char → Bool) (d : Char) :
    ∀ l : List Char, l.getLast? = some d → w d = false → ∀ x : List Char,
      (l ++ x).dropWhile w = l.dropWhile w ++ x ∧
        (l.dropWhile w).getLast? = some d := by
  intro l
  induction l with
  | nil => intro hl _ _; simp at hl
  | cons c cs ih =>
    intro hl hd x
    cases hcs : cs with
    | nil =>
      subst hcs
      have hcd : c = d := by simpa using hl
      subst hcd
      constructor
      · simp [List.cons_append, List.dropWhile_cons, hd]
      · simp [List.dropWhile_cons, hd]
    | cons e es =>
      subst hcs
      rw [List.getLast?_cons_cons] at hl
      obtain ⟨ihd, ihl⟩ := ih hl hd x
      by_cases hwc : w c
      · have l1 : ((c :: e :: es) ++ x).dropWhile w = (e :: es ++ x).dropWhile w := by
          rw [List.cons_append, List.dropWhile_cons, if_pos (by simp [hwc])]
        have l2 : (c :: e :: es).dropWhile w = (e :: es).dropWhile w := by
          rw [List.dropWhile_cons, if_pos (by simp [hwc])]
        constructor
        · rw [l1, l2]
          exact ihd
        · rw [l2]
          exact ihl
      · have hwcf : w c = false := by
          cases hq : w c with
          | true => exact absurd hq hwc
          | false => rfl
        constructor
        · simp [List.dropWhile_cons, hwcf]
        · have hstay : (c :: e :: es).dropWhile w = c :: e :: es := by
            rw [List.dropWhile_cons, if_neg (by simp [hwcf])]
          rw [hstay, List.getLast?_cons_cons]
          exact hl

/-- Soundness of the tokenizer: every run it returns is a maximal run. -/
theorem runs_sound (w : Char → Bool) (l : List Char) :
    ∀ r ∈ runs w l, IsMaximalRun w l r := by
  suffices H : ∀ k (l : List Char), l.length ≤ k →
      ∀ r ∈ runs w l, IsMaximalRun w l r from H l.length l Nat.le.refl
  intro k
  induction k with
  | zero =>
    intro l hl r hr
    rw [List.length_eq_zero.mp (Nat.le_zero.mp hl)] at hr
    exact absurd hr (List.not_mem_nil r)
  | succ k ih =>
    intro l hl r hr
    cases l with
    | nil => exact absurd hr (List.not_mem_nil r)
    | cons c cs =>
      rw [runs_cons] at hr
      by_cases hc : w c
      · rw [if_pos hc] at hr
        rcases List.mem_cons.mp hr with rfl | hr2
        · refine ⟨List.cons_ne_nil _ _, ?_, [], cs.dropWhile w, ?_, ?_, ?_⟩
          · intro d hd
            rcases List.mem_cons.mp hd with rfl | hd2
            · exact hc
            · exact List.mem_takeWhile_imp hd2
          · simp [List.takeWhile_append_dropWhile]
          · intro d hd
            simp at hd
          · intro d hd
            exact dropWhile_head_not w cs d hd
        · have hlen : (cs.dropWhile w).length ≤ k := by
            have h1 : (cs.dropWhile w).length ≤ cs.length :=
              (List.dropWhile_sublist w).length_le
            have h2 : cs.length + 1 ≤ k + 1 := by simpa using hl
            omega
          obtain ⟨hne, hword, pre, post, hdec, hpre, hpost⟩ := ih _ hlen r hr2
          refine ⟨hne, hword, (c :: cs.takeWhile w) ++ pre, post, ?_, ?_, hpost⟩
          · have hcs2 : cs = cs.takeWhile w ++ (pre ++ r ++ post) := by
              rw [← hdec, List.takeWhile_append_dropWhile]
            conv_lhs => rw [hcs2]
            simp [List.cons_append, List.append_assoc]
          · intro d hd
            cases hp : pre with
            | nil =>
              exfalso
              subst hp
              simp only [List.nil_append] at hdec
              cases hrr : r with
              | nil => exact hne hrr
              | cons r0 rtl =>
                have hh : (cs.dropWhile w).head? = some r0 := by
                  rw [hdec, hrr]
                  simp
                have hbad := dropWhile_head_not w cs r0 hh
                have hgood : w r0 = true := hword r0 (by
                  rw [hrr]; exact List.mem_cons_self _ _)
                rw [hbad] at hgood
                exact Bool.noConfusion hgood
            | cons p0 ptl =>
              rw [hp] at hpre hd
              rw [List.getLast?_append_of_ne_nil _ (List.cons_ne_nil p0 ptl)] at hd
              exact hpre d hd
      · rw [if_neg hc] at hr
        have hcf : w c = false := by
          cases hq : w c with
          | true => exact absurd hq hc
          | false => rfl
        have hlen : cs.length ≤ k := by
          have h2 : cs.length + 1 ≤ k + 1 := by simpa using hl
          omega
        obtain ⟨hne, hword, pre, post, hdec, hpre, hpost⟩ := ih _ hlen r hr
        refine ⟨hne, hword, c :: pre, post, ?_, ?_, hpost⟩
        · rw [hdec]
          simp [List.cons_append, List.append_assoc]
        · intro d hd
          cases hp : pre with
          | nil =>
            subst hp
            simp only [List.getLast?_singleton] at hd
            injection hd with hcd
            rw [← hcd]
            exact hcf
          | cons p0 ptl =>
            rw [hp] at hpre hd
            rw [List.getLast?_cons_cons] at hd
            exact hpre d hd

/-- Completeness of the tokenizer: every maximal run is returned. -/
theorem runs_complete (w : Char → Bool) (l r : List Char)
    (h : IsMaximalRun w l r) : r ∈ runs w l := by
  suffices H : ∀ k (l : List Char), l.length ≤ k →
      IsMaximalRun w l r → r ∈ runs w l from H l.length l Nat.le.refl h
  intro k
  induction k with
  | zero =>
    intro l hl hm
    obtain ⟨hne, hword, pre, post, hdec, hpre, hpost⟩ := hm
    rw [List.length_eq_zero.mp (Nat.le_zero.mp hl)] at hdec
    rcases List.append_eq_nil.mp hdec.symm with ⟨h1, h2⟩
    rcases List.append_eq_nil.mp h1 with ⟨h3, h4⟩
    exact absurd h4 hne
  | succ k ih =>
    intro l hl hm
    obtain ⟨hne, hword, pre, post, hdec, hpre, hpost⟩ := hm
    cases hp : pre with
    | nil =>
      subst hp
      simp only [List.nil_append] at hdec
      subst hdec
      cases hrr : r with
      | nil => exact absurd hrr hne
      | cons r0 rtl =>
        subst hrr
        have hw0 : w r0 = true := hword r0 (List.mem_cons_self _ _)
        have hrtl : ∀ a ∈ rtl, w a = true := fun a ha =>
          hword a (List.mem_cons_of_mem _ ha)
        have hpt : post.takeWhile w = [] := by
          cases hps : post with
          | nil => rfl
          | cons p0 ptl =>
            have hp0 : w p0 = false := hpost p0 (by rw [hps]; rfl)
            simp [List.takeWhile_cons, hp0]
        rw [List.cons_append, runs_cons, if_pos hw0,
          List.takeWhile_append_of_pos hrtl, hpt, List.append_nil]
        exact List.mem_cons_self _ _
    | cons p0 ptl =>
      subst hp
      have hlform : l = p0 :: (ptl ++ r ++ post) := by
        rw [hdec]
        simp [List.cons_append, List.append_assoc]
      have hlen2 : (ptl ++ r ++ post).length ≤ k := by
        rw [hlform] at hl
        simp only [List.length_cons] at hl
        omega
      rw [hlform, runs_cons]
      by_cases hp0 : w p0
      · rw [if_pos hp0]
        have hplast : ∃ dl, ptl.getLast? = some dl ∧ w dl = false := by
          cases hpt : ptl with
          | nil =>
            exfalso
            have hlast := hpre p0 (by rw [hpt]; simp)
            rw [hlast] at hp0
            exact Bool.noConfusion hp0
          | cons q qtl =>
            obtain ⟨dl, hdl⟩ : ∃ dl, (q :: qtl).getLast? = some dl := by
              cases hgl : (q :: qtl).getLast? with
              | none => simp at hgl
              | some dl => exact ⟨dl, rfl⟩
            refine ⟨dl, hdl, ?_⟩
            apply hpre
            rw [hpt, List.getLast?_cons_cons]
            exact hdl
        obtain ⟨dl, hdl, hwdl⟩ := hplast
        obtain ⟨hdw, hgl⟩ := dropWhile_with_bad_last w dl ptl hdl hwdl (r ++ post)
        apply List.mem_cons_of_mem
        rw [List.append_assoc, hdw]
        apply ih
        · have h1 : (ptl.dropWhile w).length ≤ ptl.length :=
            (List.dropWhile_sublist w).length_le
          simp only [List.length_append] at hlen2 ⊢
          omega
        · refine ⟨hne, hword, ptl.dropWhile w, post,
            (List.append_assoc _ _ _).symm, ?_, hpost⟩
          intro d hd
          rw [hgl] at hd
          injection hd with hdd
          rw [← hdd]
          exact hwdl
      · rw [if_neg hp0]
        apply ih _ hlen2
        refine ⟨hne, hword, ptl, post, rfl, ?_, hpost⟩
        intro d hd
        apply hpre
        cases hpt : ptl with
        | nil =>
          rw [hpt] at hd
          simp at hd
        | cons q qtl =>
          rw [hpt] at hd
          rw [List.getLast?_cons_cons]
          exact hd

/-- C5: token extraction returns exactly the maximal runs of at least two word
characters, and when the stemmer never shrinks a multi-character token below
two characters, every surviving stem in the output has length at least two:
single-character and empty tokens never appear. -/
theorem findall_maximal_runs (stemmer : String → String) (stops : String → Bool)
    (text : String) (lowercase : Bool)
    (hstem : ∀ word : String, 2 ≤ word.length → 2 ≤ (stemmer word).length) :
    (∀ tok : String, tok ∈ findall text ↔
        2 ≤ tok.length ∧ IsMaximalRun isWordChar text.data tok.data) ∧
      ∀ s ∈ stemmedTokens stemmer stops text lowercase, 2 ≤ s.length := by
  constructor
  · intro tok
    constructor
    · intro htok
      simp only [findall, List.mem_map, List.mem_filter, decide_eq_true_eq] at htok
      obtain ⟨r, ⟨hr, hlen⟩, rfl⟩ := htok
      exact ⟨hlen, runs_sound isWordChar text.data r hr⟩
    · rintro ⟨hlen, hmax⟩
      simp only [findall, List.mem_map, List.mem_filter, decide_eq_true_eq]
      exact ⟨tok.data, ⟨runs_complete _ _ _ hmax, hlen⟩, rfl⟩
  · intro s hs
    simp only [stemmedTokens] at hs
    obtain ⟨hs1, _⟩ := List.mem_filter.mp hs
    simp only [stemWords, List.map_map, List.mem_map, Function.comp] at hs1
    obtain ⟨tok, htok, rfl⟩ := hs1
    have htl : 2 ≤ tok.length := by
      simp only [findall, List.mem_map, List.mem_filter, decide_eq_true_eq] at htok
      obtain ⟨r, ⟨_, hlen⟩, rfl⟩ := htok
      exact hlen
    apply hstem
    cases lowercase with
    | false => simpa using htl
    | true => simpa [lower_length] using htl

/-- Closed instance of `findall_maximal_runs` with the identity stemmer on a
text mixing word characters, punctuation and a single-character token. -/
theorem findall_maximal_runs_witness :
    (∀ word : String, 2 ≤ word.length → 2 ≤ ((fun s => s) word).length) ∧
      ((∀ tok : String, tok ∈ findall "ab c_9 ?d" ↔
          2 ≤ tok.length ∧ IsMaximalRun isWordChar ("ab c_9 ?d" : String).data tok.data) ∧
        ∀ s ∈ stemmedTokens (fun s => s) (fun _ => false) "ab c_9 ?d" true,
          2 ≤ s.length) :=
  ⟨fun _ h => h, findall_maximal_runs _ _ _ _ (fun _ h => h)⟩

/-- Character data of a space-join of at least two words. -/
theorem spaceJoin_cons_cons_data (s t : String) (L : List String) :
    (spaceJoin (s :: t :: L)).data = s.data ++ ' ' :: (spaceJoin (t :: L)).data := by
  show (s ++ " " ++ spaceJoin (t :: L)).data = _
  simp [String.data_append]

/-- A nonempty all-word block followed by a space is split off as one run. -/
theorem runs_word_append (w : Char → Bool) (hsp : w ' ' = false) (a : List Char)
    (hne : a ≠ []) (hall : ∀ c ∈ a, w c = true) (m : List Char) :
    runs w (a ++ ' ' :: m) = a :: runs w m := by
  cases a with
  | nil => exact absurd rfl hne
  | cons c cs =>
    rw [List.cons_append, runs_cons, if_pos (by simp [hall c (List.mem_cons_self c cs)])]
    have hcs : ∀ x ∈ cs, w x = true := fun x hx => hall x (List.mem_cons_of_mem _ hx)
    rw [List.takeWhile_append_of_pos hcs, List.dropWhile_append_of_pos hcs]
    have h1 : (' ' :: m).takeWhile w = [] := by simp [List.takeWhile_cons, hsp]
    have h2 : (' ' :: m).dropWhile w = ' ' :: m := by simp [List.dropWhile_cons, hsp]
    rw [h1, h2, List.append_nil, runs_cons, if_neg (by simp [hsp])]

/-- Tokenizing a space-join of nonempty all-word words recovers the words. -/
theorem runs_spaceJoin (w : Char → Bool) (hsp : w ' ' = false) (L : List String)
    (h : ∀ s ∈ L, s.data ≠ [] ∧ ∀ c ∈ s.data, w c = true) :
    runs w (spaceJoin L).data = L.map String.data := by
  induction L with
  | nil => rfl
  | cons s L2 ih =>
    obtain ⟨hne, hall⟩ := h s (List.mem_cons_self s L2)
    cases L2 with
    | nil =>
      cases hsd : s.data with
      | nil => exact absurd hsd hne
      | cons c cs =>
        have hcs : ∀ x ∈ cs, w x = true := fun x hx => by
          apply hall
          rw [hsd]
          exact List.mem_cons_of_mem _ hx
        have htk : cs.takeWhile w = cs := by
          have h0 := @List.takeWhile_append_of_pos Char w cs [] hcs
          simpa using h0
        have hdr : cs.dropWhile w = [] := by
          have h0 := @List.dropWhile_append_of_pos Char w cs [] hcs
          simpa using h0
        show runs w s.data = [s.data]
        rw [hsd, runs_cons, if_pos (by
          apply hall
          rw [hsd]
          exact List.mem_cons_self c cs), htk, hdr]
        rfl
    | cons t L3 =>
      rw [spaceJoin_cons_cons_data, runs_word_append w hsp s.data hne hall,
        ih fun u hu => h u (List.mem_cons_of_mem _ hu)]
      rfl

/-- Re-tokenizing a space-join of all-word words of length at least two
recovers exactly the words. -/
theorem findall_spaceJoin (L : List String)
    (h : ∀ s ∈ L, (∀ c ∈ s.data, isWordChar c = true) ∧ 2 ≤ s.length) :
    findall (spaceJoin L) = L := by
  have h2 : ∀ s ∈ L, s.data ≠ [] ∧ ∀ c ∈ s.data, isWordChar c = true := by
    intro s hs
    obtain ⟨ha, hb⟩ := h s hs
    refine ⟨?_, ha⟩
    intro hnil
    have hl : 2 ≤ s.data.length := hb
    rw [hnil] at hl
    exact absurd hl (by decide)
  simp only [findall]
  rw [runs_spaceJoin isWordChar (by decide) L h2]
  have hfilter : (L.map String.data).filter (fun r => decide (2 ≤ r.length)) =
      L.map String.data := by
    apply List.filter_eq_self.mpr
    intro r hr
    obtain ⟨s, hs, rfl⟩ := List.mem_map.mp hr
    exact decide_eq_true (h s hs).2
  rw [hfilter, List.map_map]
  have hcomp : (fun r : List Char => (⟨r⟩ : String)) ∘ String.data = id := by
    funext s
    rfl
  rw [hcomp, List.map_id]

/-- C6 (amended): `stemming` is idempotent under re-tokenization provided each
surviving stem consists only of word characters, has length at least two, and
is left fixed by a second lowercase-and-stem pass; surviving stems pass the
stopword filter again automatically. -/
theorem stemming_idempotent (stemmer : String → String) (stops : String → Bool)
    (text : String) (lowercase : Bool)
    (h : ∀ s ∈ stemmedTokens stemmer stops text lowercase,
      (∀ c ∈ s.data, isWordChar c = true) ∧ 2 ≤ s.length ∧
        stemmer (if lowercase then lower s else s) = s) :
    stemming stemmer stops (stemming stemmer stops text lowercase) lowercase =
      stemming stemmer stops text lowercase := by
  have hfa : findall (spaceJoin (stemmedTokens stemmer stops text lowercase)) =
      stemmedTokens stemmer stops text lowercase :=
    findall_spaceJoin _ fun s hs => ⟨(h s hs).1, (h s hs).2.1⟩
  have hmap : (stemmedTokens stemmer stops text lowercase).map
      (fun word => stemmer (if lowercase then lower word else word)) =
      stemmedTokens stemmer stops text lowercase := by
    conv_rhs => rw [← List.map_id (stemmedTokens stemmer stops text lowercase)]
    apply List.map_congr_left
    intro s hs
    exact (h s hs).2.2
  have hfilt : (stemmedTokens stemmer stops text lowercase).filter
      (fun word => !stops word) = stemmedTokens stemmer stops text lowercase := by
    apply List.filter_eq_self.mpr
    intro s hs
    have hmem := List.mem_filter.mp (by simpa only [stemmedTokens] using hs)
    exact hmem.2
  have hst : stemmedTokens stemmer stops
      (spaceJoin (stemmedTokens stemmer stops text lowercase)) lowercase =
      stemmedTokens stemmer stops text lowercase := by
    conv_lhs => rw [stemmedTokens]
    rw [hfa]
    simp only [stemWords, List.map_map, Function.comp_def]
    rw [hmap, hfilt]
  rw [stemming, stemming, hst]

/-- Stemmer refuting unconditional idempotence: it shifts `"ab"` to `"cd"`
and `"cd"` to `"ef"`. -/
def demoShiftStemmer : String → String := fun s =>
  if s = "ab" then "cd" else if s = "cd" then "ef" else s

/-- Counterexample to C6 as stated: with a stemmer that is not idempotent on
its own output, re-running `stemming` on its output changes it. -/
theorem stemming_not_idempotent :
    stemming demoShiftStemmer (fun _ => false)
        (stemming demoShiftStemmer (fun _ => false) "ab" true) true ≠
      stemming demoShiftStemmer (fun _ => false) "ab" true := by
  decide

/-- Closed instance of `stemming_idempotent` with the identity stemmer. -/
theorem stemming_idempotent_witness :
    (∀ s ∈ stemmedTokens (fun s => s) (fun _ => false) "Good dogs bark." true,
        (∀ c ∈ s.data, isWordChar c = true) ∧ 2 ≤ s.length ∧
          (fun s => s) (if true then lower s else s) = s) ∧
      stemming (fun s => s) (fun _ => false)
          (stemming (fun s => s) (fun _ => false) "Good dogs bark." true) true =
        stemming (fun s => s) (fun _ => false) "Good dogs bark." true :=
  ⟨by decide, stemming_idempotent _ _ _ _ (by decide)⟩

end Tocken
